import Mathlib

/-!
Shallow embedding of `src/answer_buttons.py` (the FlexibleGrading add-on).

Markup strings are modelled as `List Char`.  Python `str.replace(old, new)`
is modelled by `pyReplace` (a left-to-right scan replacing non-overlapping
occurrences; the scan is driven by a fuel argument equal to the length of
the string, which bounds the number of scan steps, so the function is
structurally recursive and kernel-computable).  `re.finditer(r'<td', s)`
is modelled by `find_td`, which returns the start offsets of the
non-overlapping matches of the three-character pattern, left to right.
A Python `IndexError` (from `[][-1]`) is modelled by `Option`/`none`.

The host application (Anki's `Reviewer`) and the add-on configuration are
modelled as records of the values the add-on reads from them: `Host` holds
the per-render values obtained from `self` (the filtered button list, the
`_buttonTime` renderer, the `_remaining` counts text, the default ease,
the default-rendered back-side row `_ans_buttons_default(self)` and the
show-answer cell produced by `make_show_ans_table_cell`), and `Config`
holds the boolean options plus the `get_color` lookup.
-/

namespace FlexibleGrading

/-- The add-on configuration (`from .config import config`): the five boolean
options read via `config[...]` and the `config.get_color(ease, default_ease)`
lookup. -/
structure Config where
  pass_fail : Bool
  color_buttons : Bool
  remove_buttons : Bool
  prevent_clicks : Bool
  flexible_grading : Bool
  get_color : Int → Int → String

/-- The values the add-on reads from the host `Reviewer` object during one
render: `self._answerButtonList()`, the composite `self._buttonTime(ease,
v3_labels=labels)` renderer (a host function of the ease), `self._remaining()`,
`self._defaultEase()`, the default rendering `_ans_buttons_default(self)`, and
the cell built by `make_show_ans_table_cell(self)`. -/
structure Host where
  answerButtonList : List (Int × String)
  buttonTime : Int → List Char
  remaining : List Char
  default_ease : Int
  ans_buttons_default : List Char
  show_ans_cell : List Char

/-- Fuel-driven scan implementing Python `str.replace(old, new)`: at each
position, if `old` is a (non-empty) prefix of the remaining input, emit `new`
and continue after the matched occurrence, otherwise emit one character and
continue.  One unit of fuel is spent per scan step; since every step consumes
at least one input character, fuel `s.length` always suffices. -/
def replaceFuel (old new : List Char) : Nat → List Char → List Char
  | 0, s => s
  | _ + 1, [] => []
  | fuel + 1, c :: rest =>
    if old.isPrefixOf (c :: rest) ∧ old ≠ [] then
      new ++ replaceFuel old new fuel ((c :: rest).drop old.length)
    else
      c :: replaceFuel old new fuel rest

/-- Python `s.replace(old, new)` for a non-empty pattern `old`. -/
def pyReplace (old new s : List Char) : List Char :=
  replaceFuel old new s.length s

/-- Number of occurrences of the pattern `p` in a string (all start positions
at which `p` matches).  For the patterns used in this file the first character
of `p` occurs nowhere else in `p`, so occurrences cannot overlap and this
coincides with the non-overlapping count used by Python. -/
def countOcc (p : List Char) : List Char → Nat
  | [] => 0
  | c :: rest => (if p.isPrefixOf (c :: rest) then 1 else 0) + countOcc p rest

/-- `[m.start() for m in re.finditer(r'<td', s)]`: start offsets of the
left-to-right non-overlapping matches of `<td`, with `i` the offset of the
head of the remaining input. -/
def find_td : List Char → Nat → List Nat
  | '<' :: 't' :: 'd' :: rest, i => i :: find_td rest (i + 3)
  | _ :: rest, i => find_td rest (i + 1)
  | [], _ => []

/-- `is_again_or_good` (closure inside `only_pass_fail`):
`ease in (1, default_ease)`. -/
def is_again_or_good (default_ease ease : Int) (_label : String) : Bool :=
  ease == 1 || ease == default_ease

/-- `only_pass_fail(buttons, default_ease)`:
`tuple(button for button in buttons if is_again_or_good(*button))`. -/
def only_pass_fail (buttons : List (Int × String)) (default_ease : Int) :
    List (Int × String) :=
  buttons.filter fun b => is_again_or_good default_ease b.1 b.2

/-- `color_label` (closure inside `apply_label_colors`): wraps the label in
`<font color="{config.get_color(ease, default_ease)}">...</font>`. -/
def color_label (get_color : Int → Int → String) (default_ease : Int)
    (b : Int × String) : Int × String :=
  (b.1, "<font color=\"" ++ get_color b.1 default_ease ++ "\">" ++ b.2 ++ "</font>")

/-- `apply_label_colors(buttons, default_ease)`. -/
def apply_label_colors (get_color : Int → Int → String)
    (buttons : List (Int × String)) (default_ease : Int) : List (Int × String) :=
  buttons.map (color_label get_color default_ease)

/-- `filter_answer_buttons(buttons, self, _)`: applies the pass/fail
restriction when `config['pass_fail']`, then colorization when
`config['color_buttons']`; `self._defaultEase()` is the `default_ease`
argument. -/
def filter_answer_buttons (cfg : Config) (buttons : List (Int × String))
    (default_ease : Int) : List (Int × String) :=
  let b1 := if cfg.pass_fail then only_pass_fail buttons default_ease else buttons
  let b2 := if cfg.color_buttons then apply_label_colors cfg.get_color b1 default_ease
            else b1
  b2

/-- The `<button` pattern replaced by `disable_buttons`. -/
def btnPat : List Char := ("<button").data

/-- The replacement `<button disabled` inserted by `disable_buttons`. -/
def btnRep : List Char := ("<button disabled").data

/-- The disabled marker `" disabled"` that follows each rewritten tag. -/
def dMark : List Char := (" disabled").data

/-- The `class="nobold"` fragment stripped by `make_buttonless_ease_row`. -/
def noboldPat : List Char := ("class=\"nobold\"").data

/-- `disable_buttons(html)`: `html.replace('<button', '<button disabled')`. -/
def disable_buttons (html : List Char) : List Char :=
  pyReplace btnPat btnRep html

/-- `calc_middle_insert_pos(buttons_html_table)`:
`cell_positions[:len(cell_positions) // 2 + 1][-1]`.  Python raises
`IndexError` when `cell_positions` is empty (modelled by `none`). -/
def calc_middle_insert_pos (buttons_html_table : List Char) : Option Nat :=
  let cell_positions := find_td buttons_html_table 0
  (cell_positions.take (cell_positions.length / 2 + 1)).getLast?

/-- `make_flexible_front_row(self)`, with the host-obtained values
(`_ans_buttons_default(self)` and `make_show_ans_table_cell(self)`) passed as
arguments: splices the show-answer cell at the computed insert position;
`none` when `calc_middle_insert_pos` raises. -/
def make_flexible_front_row (ans_buttons show_cell : List Char) :
    Option (List Char) :=
  match calc_middle_insert_pos ans_buttons with
  | none => none
  | some insert_pos =>
      some (ans_buttons.take insert_pos ++ show_cell ++ ans_buttons.drop insert_pos)

/-- The style block returned by `get_ease_row_css()` (CSS braces written with
character escapes). -/
def get_ease_row_css : List Char :=
  ("\n    <style>\n    .ajt__ease_row \x7b\n        display: flex;\n        flex-flow: row nowrap;\n        justify-content: space-between;\n        align-items: flex-start;\n        max-width: 450px;\n        min-width: 200px;\n        user-select: none;\n        margin: -3px auto 0;\n    \x7d\n    .ajt__ease_row > * \x7b\n        white-space: nowrap;\n        font-size: small;\n        font-weight: normal;\n    \x7d\n    .ajt__ease_row > .ajt__stat_txt:only-child \x7b\n        margin: 0 auto;\n    \x7d\n    </style>\n    ").data

/-- `button_time` (closure inside `make_buttonless_ease_row`): the host's
`_buttonTime` output with `class="nobold"` stripped and, when
`config['color_buttons']`, `<span` restyled with the configured color. -/
def button_time (cfg : Config) (host : Host) (ease : Int) : List Char :=
  let html := pyReplace noboldPat [] (host.buttonTime ease)
  if cfg.color_buttons then
    pyReplace ("<span").data
      (("<span style=\"color: " ++ cfg.get_color ease host.default_ease ++ ";\"").data)
      html
  else html

/-- `stat_txt` (closure inside `make_buttonless_ease_row`):
`<div class="ajt__stat_txt">{self._remaining()}</div>`. -/
def stat_txt (host : Host) : List Char :=
  ("<div class=\"ajt__stat_txt\">").data ++ host.remaining ++ ("</div>").data

/-- Python `list.insert(i, x)` (for a non-negative index, clamped to the
length). -/
def py_insert {α : Type} (xs : List α) (i : Nat) (x : α) : List α :=
  xs.take i ++ x :: xs.drop i

/-- The per-button time-label fragments that `make_buttonless_ease_row` builds:
`[button_time(ease) for ease, label in self._answerButtonList()]`. -/
def buttonless_labels (cfg : Config) (host : Host) : List (List Char) :=
  host.answerButtonList.map fun b => button_time cfg host b.1

/-- The fixed wrapper around the joined ease row:
`get_ease_row_css() + f'<div class="ajt__ease_row">...</div>'`. -/
def row_wrap (row : List Char) : List Char :=
  get_ease_row_css ++ ("<div class=\"ajt__ease_row\">").data ++ row ++ ("</div>").data

/-- `make_buttonless_ease_row(self, front)`: the ease row starts empty, is
extended with the time labels when `front is False or
config['flexible_grading'] is True`, gets `stat_txt()` inserted at
`len(ease_row) // 2` when `front is True`, and is joined and wrapped. -/
def make_buttonless_ease_row (cfg : Config) (host : Host) (front : Bool) :
    List Char :=
  let ease_row : List (List Char) :=
    if front = false ∨ cfg.flexible_grading then buttonless_labels cfg host else []
  let ease_row :=
    if front then py_insert ease_row (ease_row.length / 2) (stat_txt host)
    else ease_row
  row_wrap ease_row.flatten

/-- `make_backside_answer_buttons(self, _old)`: `_old(self)` is the host's
default rendering, passed in as `host.ans_buttons_default`. -/
def make_backside_answer_buttons (cfg : Config) (host : Host) : List Char :=
  if cfg.remove_buttons then make_buttonless_ease_row cfg host false
  else if cfg.prevent_clicks then disable_buttons host.ans_buttons_default
  else host.ans_buttons_default

/-- Outcome of `make_frontside_answer_buttons(self)`: either the `IndexError`
from `calc_middle_insert_pos` propagates, or `html` stays `None` and nothing
is pushed to the web view, or the given markup is shown. -/
inductive FrontResult where
  | raised : FrontResult
  | noChange : FrontResult
  | shown : List Char → FrontResult
deriving DecidableEq

/-- `make_frontside_answer_buttons(self)`. -/
def make_frontside_answer_buttons (cfg : Config) (host : Host) : FrontResult :=
  if cfg.remove_buttons then
    FrontResult.shown (make_buttonless_ease_row cfg host true)
  else if cfg.flexible_grading then
    match make_flexible_front_row host.ans_buttons_default host.show_ans_cell with
    | none => FrontResult.raised
    | some html =>
        FrontResult.shown (if cfg.prevent_clicks then disable_buttons html else html)
  else FrontResult.noChange

/-- The same `Host` with the default-rendered back-side row replaced (used to
express that a branch does not depend on that string). -/
def host_with_default (host : Host) (s : List Char) : Host :=
  ⟨host.answerButtonList, host.buttonTime, host.remaining, host.default_ease, s,
   host.show_ans_cell⟩

/-- Modelled from the spec: the front-side row that spec 4.3 describes for
"remove buttons" — the buttonless row of section 4.2 (one time label per
button of the display list) with the remaining-counts indicator inserted at
the midpoint `len // 2` of that row, with no further condition. -/
def spec_front_row_C3 (cfg : Config) (host : Host) : List Char :=
  let labels := buttonless_labels cfg host
  row_wrap (py_insert labels (labels.length / 2) (stat_txt host)).flatten

/-- `w` has every occurrence of the pattern `p0 :: pt` immediately followed by
the marker `m` (offsets are positions in `w`; the pattern has length
`pt.length + 1`). -/
def MarksFollow (p0 : Char) (pt m w : List Char) : Prop :=
  ∀ i : Nat, (p0 :: pt).isPrefixOf (w.drop i) = true →
    m.isPrefixOf (w.drop (i + (pt.length + 1))) = true

/-- A four-cell back-side row markup (scenario 4 of the spec). -/
def sampleRow4 : List Char := ("<td>A</td><td>B</td><td>C</td><td>D</td>").data

/-- A show-answer cell in the shape produced by `make_show_ans_table_cell`. -/
def sampleShowCell : List Char :=
  ("<td align=center><button>Show answer</button></td>").data

/-- A configuration with `remove_buttons` on and everything else off. -/
def cfgW : Config := ⟨false, false, true, false, false, fun _ _ => "green"⟩

/-- A host whose `_buttonTime` renderer returns the realistic
single-attribute shape. -/
def hostW : Host :=
  ⟨[(1, "Again")], fun _ => ("<span class=\"nobold\">3 min</span>").data,
   ("10+70+108").data, 3, [], []⟩

/-- A host whose `_buttonTime` renderer returns a string from which deleting
the single `class="nobold"` occurrence re-creates that very string by
juxtaposition of the remnants. -/
def hostN : Host :=
  ⟨[(1, "Again")], fun _ => ("class=\"nobclass=\"nobold\"old\"").data,
   ("10").data, 3, [], []⟩

/-! ### Basic facts about the `str.replace` model -/

theorem replaceFuel_eq_of_le (old new : List Char) :
    ∀ (f₁ f₂ : Nat) (s : List Char), s.length ≤ f₁ → s.length ≤ f₂ →
      replaceFuel old new f₁ s = replaceFuel old new f₂ s := by
  intro f₁
  induction f₁ with
  | zero =>
    intro f₂ s h₁ _
    have hs : s = [] := List.eq_nil_of_length_eq_zero (Nat.le_zero.mp h₁)
    subst hs
    cases f₂ <;> rfl
  | succ f ih =>
    intro f₂ s h₁ h₂
    cases s with
    | nil => cases f₂ <;> rfl
    | cons c rest =>
      cases f₂ with
      | zero => simp at h₂
      | succ f₂' =>
        simp only [replaceFuel]
        have hol : old ≠ [] → 1 ≤ old.length := by
          intro h
          cases old with
          | nil => exact absurd rfl h
          | cons _ _ => simp
        by_cases h : old.isPrefixOf (c :: rest) ∧ old ≠ []
        · rw [if_pos h, if_pos h]
          congr 1
          apply ih
          · simp only [List.length_drop, List.length_cons]
            have := hol h.2
            simp only [List.length_cons] at h₁
            omega
          · simp only [List.length_drop, List.length_cons]
            have := hol h.2
            simp only [List.length_cons] at h₂
            omega
        · rw [if_neg h, if_neg h]
          congr 1
          apply ih
          · simp only [List.length_cons] at h₁; omega
          · simp only [List.length_cons] at h₂; omega

theorem pyReplace_nil (old new : List Char) : pyReplace old new [] = [] := rfl

/-- One scan step of `pyReplace` (the recursion of `str.replace` freed from
the fuel bookkeeping). -/
theorem pyReplace_cons (old new : List Char) (c : Char) (rest : List Char) :
    pyReplace old new (c :: rest) =
      if old.isPrefixOf (c :: rest) ∧ old ≠ [] then
        new ++ pyReplace old new ((c :: rest).drop old.length)
      else c :: pyReplace old new rest := by
  show replaceFuel old new (c :: rest).length (c :: rest) = _
  simp only [List.length_cons, replaceFuel]
  have hol : old ≠ [] → 1 ≤ old.length := by
    intro h
    cases old with
    | nil => exact absurd rfl h
    | cons _ _ => simp
  by_cases h : old.isPrefixOf (c :: rest) ∧ old ≠ []
  · rw [if_pos h, if_pos h]
    congr 1
    apply replaceFuel_eq_of_le
    · simp only [List.length_drop, List.length_cons]
      have := hol h.2
      omega
    · rfl
  · rw [if_neg h, if_neg h]
    rfl

/-! ### Occurrence counting for patterns whose head character occurs nowhere
else in the pattern (true of `<button`, `<td`, `<span` and `class="nobold"`) -/

theorem isPrefixOf_cons_of_ne {p0 c : Char} (pt rest : List Char) (hne : c ≠ p0) :
    (p0 :: pt).isPrefixOf (c :: rest) = false := by
  have hc : (p0 == c) = false := beq_eq_false_iff_ne.mpr fun e => hne e.symm
  simp [List.isPrefixOf_cons₂, hc]

theorem countOcc_head_free_append (p0 : Char) (pt : List Char) :
    ∀ (u v : List Char), (∀ c ∈ u, c ≠ p0) →
      countOcc (p0 :: pt) (u ++ v) = countOcc (p0 :: pt) v := by
  intro u
  induction u with
  | nil => intro v _; rfl
  | cons c u' ih =>
    intro v hu
    have hpre : (p0 :: pt).isPrefixOf (c :: (u' ++ v)) = false :=
      isPrefixOf_cons_of_ne _ _ (hu c (by simp))
    simp only [List.cons_append, countOcc, List.append_eq, hpre]
    rw [ih v fun x hx => hu x (List.mem_cons_of_mem _ hx)]
    simp

theorem countOcc_eq_zero_of_head_free (p0 : Char) (pt : List Char) :
    ∀ w : List Char, (∀ c ∈ w, c ≠ p0) → countOcc (p0 :: pt) w = 0 := by
  intro w
  induction w with
  | nil => intro _; rfl
  | cons c w' ih =>
    intro hw
    have hpre : (p0 :: pt).isPrefixOf (c :: w') = false :=
      isPrefixOf_cons_of_ne _ _ (hw c (by simp))
    simp only [countOcc, hpre]
    rw [ih fun x hx => hw x (List.mem_cons_of_mem _ hx)]
    simp

theorem countOcc_self_append (p0 : Char) (pt v : List Char)
    (ht : ∀ c ∈ pt, c ≠ p0) :
    countOcc (p0 :: pt) ((p0 :: pt) ++ v) = 1 + countOcc (p0 :: pt) v := by
  have h1 : (p0 :: pt).isPrefixOf (p0 :: (pt ++ v)) = true := by
    rw [ List.isPrefixOf_iff_prefix]
    exact ⟨v, by simp⟩
  simp only [List.cons_append, countOcc, List.append_eq, h1]
  rw [countOcc_head_free_append p0 pt pt v ht]
  simp

theorem countOcc_pos_of_infix (p : List Char) (hp : p ≠ []) :
    ∀ s : List Char, List.IsInfix p s → 1 ≤ countOcc p s := by
  intro s
  induction s with
  | nil =>
    intro h
    exact absurd (List.infix_nil.mp h) hp
  | cons c rest ih =>
    intro h
    rcases List.infix_cons_iff.mp h with hpre | hinf
    · have hb : p.isPrefixOf (c :: rest) = true := by
        rw [ List.isPrefixOf_iff_prefix]
        exact hpre
      simp [countOcc, hb]
    · have h1 := ih hinf
      have h2 : countOcc p rest ≤ countOcc p (c :: rest) := by
        simp only [countOcc]
        omega
      omega

/-! ### Behaviour of `str.replace` when the replacement is the pattern
followed by marker text free of the pattern's head character -/

theorem isPrefixOf_replaceFuel_transfer (p0 : Char) (pt m : List Char) :
    ∀ (fuel : Nat) (s tq : List Char), s.length ≤ fuel → (∀ c ∈ tq, c ≠ p0) →
      tq.isPrefixOf (replaceFuel (p0 :: pt) ((p0 :: pt) ++ m) fuel s) = true →
      tq.isPrefixOf s = true := by
  intro fuel
  induction fuel with
  | zero => intro s tq _ _ hpre; exact hpre
  | succ f ih =>
    intro s tq hlen htq hpre
    cases s with
    | nil => exact hpre
    | cons c rest =>
      simp only [replaceFuel] at hpre
      by_cases hmatch : (p0 :: pt).isPrefixOf (c :: rest) = true ∧ p0 :: pt ≠ []
      · rw [if_pos hmatch] at hpre
        cases tq with
        | nil => simp
        | cons tc tq' =>
          exfalso
          rw [show ((p0 :: pt) ++ m) ++ replaceFuel (p0 :: pt) ((p0 :: pt) ++ m) f
                ((c :: rest).drop (p0 :: pt).length)
              = p0 :: ((pt ++ m) ++ replaceFuel (p0 :: pt) ((p0 :: pt) ++ m) f
                ((c :: rest).drop (p0 :: pt).length)) by simp] at hpre
          rw [List.isPrefixOf_cons₂, Bool.and_eq_true, beq_iff_eq] at hpre
          exact htq tc (by simp) hpre.1
      · rw [if_neg hmatch] at hpre
        cases tq with
        | nil => simp
        | cons tc tq' =>
          rw [List.isPrefixOf_cons₂, Bool.and_eq_true] at hpre ⊢
          refine ⟨hpre.1, ?_⟩
          exact ih rest tq' (by simp only [List.length_cons] at hlen; omega)
            (fun x hx => htq x (List.mem_cons_of_mem _ hx)) hpre.2

theorem countOcc_replaceFuel (p0 : Char) (pt m : List Char)
    (ht : ∀ c ∈ pt, c ≠ p0) (hm : ∀ c ∈ m, c ≠ p0) :
    ∀ (fuel : Nat) (s : List Char), s.length ≤ fuel →
      countOcc (p0 :: pt) (replaceFuel (p0 :: pt) ((p0 :: pt) ++ m) fuel s)
        = countOcc (p0 :: pt) s := by
  intro fuel
  induction fuel with
  | zero => intro s _; rfl
  | succ f ih =>
    intro s hlen
    cases s with
    | nil => rfl
    | cons c rest =>
      simp only [replaceFuel]
      by_cases hmatch : (p0 :: pt).isPrefixOf (c :: rest) = true ∧ p0 :: pt ≠ []
      · rw [if_pos hmatch]
        obtain ⟨u, hu⟩ : ∃ u, c :: rest = (p0 :: pt) ++ u := by
          obtain ⟨u, hu⟩ := ( List.isPrefixOf_iff_prefix).mp hmatch.1
          exact ⟨u, hu.symm⟩
        have hdrop : (c :: rest).drop (p0 :: pt).length = u := by
          rw [hu, List.drop_left]
        have hulen : u.length ≤ f := by
          have := congrArg List.length hu
          simp only [List.length_cons, List.length_append] at this hlen
          omega
        rw [hdrop, List.append_assoc, countOcc_self_append p0 pt _ ht,
          countOcc_head_free_append p0 pt m _ hm, ih u hulen, hu,
          countOcc_self_append p0 pt u ht]
      · rw [if_neg hmatch]
        have hne : p0 :: pt ≠ [] := by simp
        have hnomatch : (p0 :: pt).isPrefixOf (c :: rest) = false := by
          rcases Bool.eq_false_or_eq_true ((p0 :: pt).isPrefixOf (c :: rest)) with h | h
          · exact absurd ⟨h, hne⟩ hmatch
          · exact h
        have hnomatch' :
            (p0 :: pt).isPrefixOf (c :: replaceFuel (p0 :: pt) ((p0 :: pt) ++ m) f rest)
              = false := by
          rcases Bool.eq_false_or_eq_true
              ((p0 :: pt).isPrefixOf
                (c :: replaceFuel (p0 :: pt) ((p0 :: pt) ++ m) f rest)) with h | h
          swap
          · exact h
          · exfalso
            rw [List.isPrefixOf_cons₂, Bool.and_eq_true] at h
            have htr := isPrefixOf_replaceFuel_transfer p0 pt m f rest pt
              (by simp only [List.length_cons] at hlen; omega) ht h.2
            rw [show (p0 :: pt).isPrefixOf (c :: rest)
                = (p0 == c && pt.isPrefixOf rest) from rfl, h.1, htr] at hnomatch
            simp at hnomatch
        simp only [countOcc, hnomatch, hnomatch']
        rw [ih rest (by simp only [List.length_cons] at hlen; omega)]

theorem length_replaceFuel (p0 : Char) (pt m : List Char)
    (ht : ∀ c ∈ pt, c ≠ p0) :
    ∀ (fuel : Nat) (s : List Char), s.length ≤ fuel →
      (replaceFuel (p0 :: pt) ((p0 :: pt) ++ m) fuel s).length
        = s.length + m.length * countOcc (p0 :: pt) s := by
  intro fuel
  induction fuel with
  | zero =>
    intro s hlen
    have hs : s = [] := List.eq_nil_of_length_eq_zero (Nat.le_zero.mp hlen)
    subst hs
    rfl
  | succ f ih =>
    intro s hlen
    cases s with
    | nil => rfl
    | cons c rest =>
      simp only [replaceFuel]
      by_cases hmatch : (p0 :: pt).isPrefixOf (c :: rest) = true ∧ p0 :: pt ≠ []
      · rw [if_pos hmatch]
        obtain ⟨u, hu⟩ : ∃ u, c :: rest = (p0 :: pt) ++ u := by
          obtain ⟨u, hu⟩ := ( List.isPrefixOf_iff_prefix).mp hmatch.1
          exact ⟨u, hu.symm⟩
        have hdrop : (c :: rest).drop (p0 :: pt).length = u := by
          rw [hu, List.drop_left]
        have hulen : u.length ≤ f := by
          have := congrArg List.length hu
          simp only [List.length_cons, List.length_append] at this hlen
          omega
        rw [hdrop, List.length_append, ih u hulen, hu,
          countOcc_self_append p0 pt u ht]
        simp only [List.length_append, List.length_cons]
        ring
      · rw [if_neg hmatch]
        have hne : p0 :: pt ≠ [] := by simp
        have hnomatch : (p0 :: pt).isPrefixOf (c :: rest) = false := by
          rcases Bool.eq_false_or_eq_true ((p0 :: pt).isPrefixOf (c :: rest)) with h | h
          · exact absurd ⟨h, hne⟩ hmatch
          · exact h
        simp only [countOcc, hnomatch, List.length_cons]
        rw [ih rest (by simp only [List.length_cons] at hlen; omega)]
        simp only [if_neg (by simp : ¬(false = true))]
        ring

theorem marks_follow_nil (p0 : Char) (pt m : List Char) : MarksFollow p0 pt m [] := by
  intro i h
  rw [List.drop_nil] at h
  rw [List.isPrefixOf_cons_nil] at h
  exact absurd h (by simp)

theorem marks_follow_cons (p0 : Char) (pt m : List Char) (c : Char) (w : List Char)
    (hc : c ≠ p0) (hw : MarksFollow p0 pt m w) : MarksFollow p0 pt m (c :: w) := by
  intro i h
  cases i with
  | zero =>
    rw [List.drop_zero] at h
    rw [isPrefixOf_cons_of_ne _ _ hc] at h
    exact absurd h (by simp)
  | succ i' =>
    rw [List.drop_succ_cons] at h
    have : i' + 1 + (pt.length + 1) = (i' + (pt.length + 1)) + 1 := by omega
    rw [this, List.drop_succ_cons]
    exact hw i' h

theorem marks_follow_free_append (p0 : Char) (pt m : List Char) :
    ∀ (u w : List Char), (∀ c ∈ u, c ≠ p0) → MarksFollow p0 pt m w →
      MarksFollow p0 pt m (u ++ w) := by
  intro u
  induction u with
  | nil => intro w _ hw; exact hw
  | cons c u' ih =>
    intro w hu hw
    rw [List.cons_append]
    exact marks_follow_cons p0 pt m c _ (hu c (by simp))
      (ih w (fun x hx => hu x (List.mem_cons_of_mem _ hx)) hw)

theorem marks_follow_rep (p0 : Char) (pt m : List Char)
    (ht : ∀ c ∈ pt, c ≠ p0) (hm : ∀ c ∈ m, c ≠ p0) (w : List Char)
    (hw : MarksFollow p0 pt m w) :
    MarksFollow p0 pt m (((p0 :: pt) ++ m) ++ w) := by
  intro i h
  cases i with
  | zero =>
    rw [Nat.zero_add]
    have : (((p0 :: pt) ++ m) ++ w).drop (pt.length + 1) = m ++ w := by
      rw [List.append_assoc]
      rw [show pt.length + 1 = (p0 :: pt).length from rfl]
      exact List.drop_left _ _
    rw [this, List.isPrefixOf_iff_prefix]
    exact ⟨w, rfl⟩
  | succ i' =>
    have hshape : ((p0 :: pt) ++ m) ++ w = p0 :: ((pt ++ m) ++ w) := by simp
    rw [hshape, List.drop_succ_cons] at h
    have harith : i' + 1 + (pt.length + 1) = (i' + (pt.length + 1)) + 1 := by omega
    rw [hshape, harith, List.drop_succ_cons]
    exact marks_follow_free_append p0 pt m (pt ++ m) w
      (by
        intro x hx
        rcases List.mem_append.mp hx with hx | hx
        · exact ht x hx
        · exact hm x hx) hw i' h

theorem marks_follow_replaceFuel (p0 : Char) (pt m : List Char)
    (ht : ∀ c ∈ pt, c ≠ p0) (hm : ∀ c ∈ m, c ≠ p0) :
    ∀ (fuel : Nat) (s : List Char), s.length ≤ fuel →
      MarksFollow p0 pt m (replaceFuel (p0 :: pt) ((p0 :: pt) ++ m) fuel s) := by
  intro fuel
  induction fuel with
  | zero =>
    intro s hlen
    have hs : s = [] := List.eq_nil_of_length_eq_zero (Nat.le_zero.mp hlen)
    subst hs
    exact marks_follow_nil p0 pt m
  | succ f ih =>
    intro s hlen
    cases s with
    | nil => exact marks_follow_nil p0 pt m
    | cons c rest =>
      simp only [replaceFuel]
      by_cases hmatch : (p0 :: pt).isPrefixOf (c :: rest) = true ∧ p0 :: pt ≠ []
      · rw [if_pos hmatch]
        obtain ⟨u, hu⟩ : ∃ u, c :: rest = (p0 :: pt) ++ u := by
          obtain ⟨u, hu⟩ := ( List.isPrefixOf_iff_prefix).mp hmatch.1
          exact ⟨u, hu.symm⟩
        have hdrop : (c :: rest).drop (p0 :: pt).length = u := by
          rw [hu, List.drop_left]
        have hulen : u.length ≤ f := by
          have := congrArg List.length hu
          simp only [List.length_cons, List.length_append] at this hlen
          omega
        rw [hdrop]
        exact marks_follow_rep p0 pt m ht hm _ (ih u hulen)
      · rw [if_neg hmatch]
        intro i h
        cases i with
        | zero =>
          exfalso
          rw [List.drop_zero, List.isPrefixOf_cons₂, Bool.and_eq_true] at h
          have htr := isPrefixOf_replaceFuel_transfer p0 pt m f rest pt
            (by simp only [List.length_cons] at hlen; omega) ht h.2
          have hcontra : (p0 :: pt).isPrefixOf (c :: rest) = true := by
            rw [List.isPrefixOf_cons₂, h.1, htr]
            rfl
          exact hmatch ⟨hcontra, by simp⟩
        | succ i' =>
          rw [List.drop_succ_cons] at h
          have harith : i' + 1 + (pt.length + 1) = (i' + (pt.length + 1)) + 1 := by
            omega
          rw [harith, List.drop_succ_cons]
          exact ih rest (by simp only [List.length_cons] at hlen; omega) i' h

/-- Claim C1: `only_pass_fail(L, d)` is the order-preserving subsequence of
`L` containing exactly the entries whose action code is `1` (the "again"
constant) or the default `d`; on
`[(1,"Again"),(2,"Hard"),(3,"Good"),(4,"Easy")]` with default `3` it returns
`[(1,"Again"),(3,"Good")]`. -/
theorem C1_only_pass_fail (L : List (Int × String)) (d : Int) :
    List.Sublist (only_pass_fail L d) L ∧
    (∀ b, b ∈ only_pass_fail L d ↔ b ∈ L ∧ (b.1 = 1 ∨ b.1 = d)) ∧
    (∀ b ∈ L, (b.1 = 1 ∨ b.1 = d) →
        List.count b (only_pass_fail L d) = List.count b L) ∧
    only_pass_fail [(1, "Again"), (2, "Hard"), (3, "Good"), (4, "Easy")] 3
      = [(1, "Again"), (3, "Good")] := by
  refine ⟨List.filter_sublist _, ?_, ?_, by decide⟩
  · intro b
    simp [only_pass_fail, List.mem_filter, is_again_or_good]
  · intro b _ hb
    have hp : is_again_or_good d b.1 b.2 = true := by
      simp only [is_again_or_good, Bool.or_eq_true, beq_iff_eq]
      exact hb
    exact List.count_filter hp

theorem C1_only_pass_fail_witness :
    (((1 : Int), "Again") ∈
        only_pass_fail [(1, "Again"), (2, "Hard"), (3, "Good"), (4, "Easy")] 3) ∧
    List.count ((1 : Int), "Again")
        (only_pass_fail [(1, "Again"), (2, "Hard"), (3, "Good"), (4, "Easy")] 3)
      = List.count ((1 : Int), "Again")
        [(1, "Again"), (2, "Hard"), (3, "Good"), (4, "Easy")] := by
  constructor
  · exact ((C1_only_pass_fail _ 3).2.1 _).mpr (by decide)
  · exact (C1_only_pass_fail _ 3).2.2.1 _ (by decide) (by decide)

/-- Claim C7: `apply_label_colors` preserves order and cardinality; the i-th
output keeps the i-th action code and wraps the i-th label in the color tag
for `(code, d)`; with a lookup returning `"red"` for `(1, 3)`, input
`[(1,"Again")]` yields `[(1, '<font color="red">Again</font>')]`. -/
theorem C7_apply_label_colors (gc : Int → Int → String)
    (L : List (Int × String)) (d : Int) :
    (apply_label_colors gc L d).length = L.length ∧
    (∀ i : Nat, (apply_label_colors gc L d)[i]? =
      (L[i]?).map fun b =>
        (b.1, "<font color=\"" ++ gc b.1 d ++ "\">" ++ b.2 ++ "</font>")) ∧
    apply_label_colors (fun e de => if e = 1 ∧ de = 3 then "red" else "green")
        [(1, "Again")] 3
      = [(1, "<font color=\"red\">Again</font>")] := by
  refine ⟨by simp [apply_label_colors], ?_, by decide⟩
  intro i
  simp only [apply_label_colors, List.getElem?_map]
  rfl

/-- Claim C8: with both `pass_fail` and `color_buttons` enabled,
`filter_answer_buttons` colorizes the pass/fail-restricted list, and the two
composition orders agree (here proved as list equality, which in particular
keeps the same entries with identical underlying text). -/
theorem C8_filter_colorize_commute (gc : Int → Int → String) (rb pc fg : Bool)
    (L : List (Int × String)) (d : Int) :
    filter_answer_buttons ⟨true, true, rb, pc, fg, gc⟩ L d
      = apply_label_colors gc (only_pass_fail L d) d ∧
    only_pass_fail (apply_label_colors gc L d) d
      = apply_label_colors gc (only_pass_fail L d) d := by
  constructor
  · rfl
  · unfold only_pass_fail apply_label_colors
    rw [List.filter_map]
    rfl

/-! ### Specializations to `disable_buttons` -/

theorem disable_buttons_count (s : List Char) :
    countOcc btnPat (disable_buttons s) = countOcc btnPat s := by
  have h := countOcc_replaceFuel '<' (("button").data) ((" disabled").data)
    (by decide) (by decide) s.length s le_rfl
  exact h

theorem disable_buttons_marks (s : List Char) :
    ∀ i : Nat, btnPat.isPrefixOf ((disable_buttons s).drop i) = true →
      dMark.isPrefixOf ((disable_buttons s).drop (i + 7)) = true := by
  have h := marks_follow_replaceFuel '<' (("button").data) ((" disabled").data)
    (by decide) (by decide) s.length s le_rfl
  exact h

theorem disable_buttons_length (s : List Char) :
    (disable_buttons s).length = s.length + 9 * countOcc btnPat s := by
  have h := length_replaceFuel '<' (("button").data) ((" disabled").data)
    (by decide) s.length s le_rfl
  exact h

/-! ### Deletion of a pattern (the `class="nobold"` strip) -/

theorem pyReplace_del_free_append (p0 : Char) (pt : List Char) :
    ∀ (u v : List Char), (∀ c ∈ u, c ≠ p0) →
      pyReplace (p0 :: pt) [] (u ++ ((p0 :: pt) ++ v))
        = u ++ pyReplace (p0 :: pt) [] v := by
  intro u
  induction u with
  | nil =>
    intro v _
    rw [List.nil_append, List.cons_append, pyReplace_cons]
    have hpre : (p0 :: pt).isPrefixOf (p0 :: (pt ++ v)) = true := by
      rw [ List.isPrefixOf_iff_prefix]
      exact ⟨v, by simp⟩
    rw [if_pos ⟨hpre, by simp⟩]
    have hdrop : (p0 :: (pt ++ v)).drop (p0 :: pt).length = v := by
      rw [show p0 :: (pt ++ v) = (p0 :: pt) ++ v by simp, List.drop_left]
    rw [hdrop]
  | cons c u' ih =>
    intro v hu
    rw [List.cons_append, pyReplace_cons]
    have hpre : (p0 :: pt).isPrefixOf (c :: (u' ++ ((p0 :: pt) ++ v))) = false :=
      isPrefixOf_cons_of_ne _ _ (hu c (by simp))
    rw [if_neg fun hcontra => by
      have hx := hcontra.1
      rw [hpre] at hx
      exact absurd hx (by simp)]
    rw [ih v fun x hx => hu x (List.mem_cons_of_mem _ hx), List.cons_append]

theorem pyReplace_del_of_head_free (p0 : Char) (pt : List Char) :
    ∀ v : List Char, (∀ c ∈ v, c ≠ p0) → pyReplace (p0 :: pt) [] v = v := by
  intro v
  induction v with
  | nil => intro _; rfl
  | cons c v' ih =>
    intro hv
    rw [pyReplace_cons]
    have hpre : (p0 :: pt).isPrefixOf (c :: v') = false :=
      isPrefixOf_cons_of_ne _ _ (hv c (by simp))
    rw [if_neg fun hcontra => by
      have hx := hcontra.1
      rw [hpre] at hx
      exact absurd hx (by simp)]
    rw [ih fun x hx => hv x (List.mem_cons_of_mem _ hx)]

/-! ### Midpoint computation -/

theorem calc_middle_insert_pos_eq (s : List Char)
    (h : 1 ≤ (find_td s 0).length) :
    calc_middle_insert_pos s = (find_td s 0)[(find_td s 0).length / 2]? := by
  unfold calc_middle_insert_pos
  have hlt : (find_td s 0).length / 2 < (find_td s 0).length :=
    Nat.div_lt_self (by omega) (by omega)
  have htk : ((find_td s 0).take ((find_td s 0).length / 2 + 1)).length
      = (find_td s 0).length / 2 + 1 := by
    rw [List.length_take]
    omega
  rw [List.getLast?_eq_getElem?, htk]
  simp only [Nat.add_sub_cancel]
  exact List.getElem?_take_of_lt (by omega)

/-! ### Remaining claim theorems -/

/-- Claim C2 (the claim describes the spec's required behaviour; the code
raises): on markup with zero `<td` markers `calc_middle_insert_pos` evaluates
`[][-1]` and raises `IndexError` (modelled as `none`) instead of returning
position 0; with one marker it does return that marker's position (offset 0
for a row starting with the cell, generally the start offset of the single
cell). -/
theorem C2_calc_middle_insert_pos :
    calc_middle_insert_pos [] = none ∧
    calc_middle_insert_pos (("<p>no cells</p>").data) = none ∧
    calc_middle_insert_pos (("<td>").data) = some 0 ∧
    calc_middle_insert_pos (("xx<td>x").data) = some 2 := by
  exact ⟨rfl, by decide, by decide, by decide⟩

/-- Claim C4: with at least one `<td` marker, the insert position is the start
offset of cell number `floor(N/2)` (0-based), so the show-answer cell is
spliced in at cell index `floor(N/2)`; for the four-cell sample row the cell
lands at cell index 2 and the combined row has 5 cells, with the original
cells kept in order around it. -/
theorem C4_flexible_midpoint (s cell : List Char)
    (h : 1 ≤ (find_td s 0).length) :
    calc_middle_insert_pos s = (find_td s 0)[(find_td s 0).length / 2]? ∧
    make_flexible_front_row s cell
      = ((find_td s 0)[(find_td s 0).length / 2]?).map
          (fun p => s.take p ++ cell ++ s.drop p) ∧
    make_flexible_front_row sampleRow4 sampleShowCell
      = some ((("<td>A</td><td>B</td>").data) ++ sampleShowCell
          ++ (("<td>C</td><td>D</td>").data)) ∧
    (find_td ((("<td>A</td><td>B</td>").data) ++ sampleShowCell
        ++ (("<td>C</td><td>D</td>").data)) 0).length = 5 := by
  have h1 := calc_middle_insert_pos_eq s h
  have hlt : (find_td s 0).length / 2 < (find_td s 0).length :=
    Nat.div_lt_self (by omega) (by omega)
  refine ⟨h1, ?_, by decide, by decide⟩
  unfold make_flexible_front_row
  rw [h1, List.getElem?_eq_getElem hlt]
  rfl

theorem C4_flexible_midpoint_witness :
    calc_middle_insert_pos sampleRow4
      = (find_td sampleRow4 0)[(find_td sampleRow4 0).length / 2]? ∧
    make_flexible_front_row sampleRow4 sampleShowCell
      = ((find_td sampleRow4 0)[(find_td sampleRow4 0).length / 2]?).map
          (fun p => sampleRow4.take p ++ sampleShowCell ++ sampleRow4.drop p) ∧
    make_flexible_front_row sampleRow4 sampleShowCell
      = some ((("<td>A</td><td>B</td>").data) ++ sampleShowCell
          ++ (("<td>C</td><td>D</td>").data)) ∧
    (find_td ((("<td>A</td><td>B</td>").data) ++ sampleShowCell
        ++ (("<td>C</td><td>D</td>").data)) 0).length = 5 :=
  C4_flexible_midpoint sampleRow4 sampleShowCell (by decide)

/-- Claim C5: `make_backside_answer_buttons` dispatches with `remove_buttons`
first (and then the result does not depend on the host's default-rendered
string), `prevent_clicks` second (the default rendering with the disabled
marker inserted on every button tag, keeping the button-tag count), and
otherwise returns the default rendering unchanged. -/
theorem C5_backside_dispatch (pf cb rb pc fg : Bool) (gc : Int → Int → String)
    (host : Host) (s1 s2 : List Char) :
    make_backside_answer_buttons ⟨pf, cb, rb, pc, fg, gc⟩ host
      = (if rb then make_buttonless_ease_row ⟨pf, cb, rb, pc, fg, gc⟩ host false
         else if pc then disable_buttons host.ans_buttons_default
         else host.ans_buttons_default) ∧
    make_backside_answer_buttons ⟨pf, cb, true, pc, fg, gc⟩
        (host_with_default host s1)
      = make_backside_answer_buttons ⟨pf, cb, true, pc, fg, gc⟩
        (host_with_default host s2) ∧
    countOcc btnPat (disable_buttons host.ans_buttons_default)
      = countOcc btnPat host.ans_buttons_default :=
  ⟨rfl, rfl, disable_buttons_count _⟩

/-- Claim C6: in the output of `disable_buttons` every occurrence of
`<button` is immediately followed by `" disabled"`, the number of `<button`
occurrences is unchanged, and `<button>Good</button>` maps to
`<button disabled>Good</button>`. -/
theorem C6_disable_buttons (s : List Char) :
    (∀ i : Nat, btnPat.isPrefixOf ((disable_buttons s).drop i) = true →
        dMark.isPrefixOf ((disable_buttons s).drop (i + 7)) = true) ∧
    countOcc btnPat (disable_buttons s) = countOcc btnPat s ∧
    disable_buttons (("<button>Good</button>").data)
      = ("<button disabled>Good</button>").data :=
  ⟨disable_buttons_marks s, disable_buttons_count s, by decide⟩

theorem C6_disable_buttons_witness :
    dMark.isPrefixOf
        ((disable_buttons (("<button>Good</button>").data)).drop (0 + 7)) = true ∧
    countOcc btnPat (disable_buttons (("<button>Good</button>").data))
      = countOcc btnPat (("<button>Good</button>").data) :=
  ⟨(C6_disable_buttons (("<button>Good</button>").data)).1 0 (by decide),
   (C6_disable_buttons (("<button>Good</button>").data)).2.1⟩

/-- Claim C10: `disable_buttons` is not idempotent — on any string containing
`<button`, a second application inserts further markers, so the result
strictly differs from a single application. -/
theorem C10_disable_not_idempotent (s : List Char)
    (h : List.IsInfix btnPat s) :
    disable_buttons (disable_buttons s) ≠ disable_buttons s := by
  intro heq
  have hc := countOcc_pos_of_infix btnPat (by decide) s h
  have h1 : (disable_buttons (disable_buttons s)).length
      = (disable_buttons s).length + 9 * countOcc btnPat (disable_buttons s) :=
    disable_buttons_length _
  rw [disable_buttons_count] at h1
  have h2 := congrArg List.length heq
  omega

theorem C10_disable_not_idempotent_witness :
    disable_buttons (disable_buttons (("<button>Good</button>").data))
      ≠ disable_buttons (("<button>Good</button>").data) :=
  C10_disable_not_idempotent (("<button>Good</button>").data)
    ⟨[], ((">Good</button>").data), by decide⟩

/-- Claim C9 as stated is false: deleting the single `class="nobold"`
occurrence from this host's `_buttonTime` output re-creates the very string
`class="nobold"` by juxtaposition of the remnants, so the time-label fragment
placed into the buttonless row still contains it. -/
theorem C9_nobold_counterexample :
    buttonless_labels cfgW hostN = [button_time cfgW hostN 1] ∧
    countOcc noboldPat (button_time cfgW hostN 1) = 1 :=
  ⟨rfl, by decide⟩

/-- Claim C9 amended: each host-produced `class="nobold"` occurrence is
removed by a single left-to-right replace; when `color_buttons` is off and
the host's button-time output has the realistic shape `u ++ 'class="nobold"'
++ v` with the letter `c` absent from `u` and `v`, the resulting fragment is
exactly `u ++ v` and contains no occurrence of the class string (adversarial
outputs may re-create it by juxtaposition). -/
theorem C9_nobold_stripped (cfg : Config) (host : Host) (ease : Int)
    (u v : List Char)
    (hcb : cfg.color_buttons = false)
    (hbt : host.buttonTime ease = u ++ (noboldPat ++ v))
    (hu : ∀ c ∈ u, c ≠ 'c') (hv : ∀ c ∈ v, c ≠ 'c') :
    button_time cfg host ease = u ++ v ∧
    countOcc noboldPat (button_time cfg host ease) = 0 := by
  have h1 : button_time cfg host ease
      = pyReplace noboldPat [] (host.buttonTime ease) := by
    unfold button_time
    rw [hcb]
    simp
  have hnb : noboldPat = 'c' :: (("lass=\"nobold\"").data) := rfl
  have h2 : button_time cfg host ease = u ++ v := by
    rw [h1, hbt, hnb]
    rw [pyReplace_del_free_append 'c' _ u v hu]
    rw [pyReplace_del_of_head_free 'c' _ v hv]
  refine ⟨h2, ?_⟩
  rw [h2, hnb]
  apply countOcc_eq_zero_of_head_free
  intro x hx
  rcases List.mem_append.mp hx with hx | hx
  · exact hu x hx
  · exact hv x hx

theorem C9_nobold_stripped_witness :
    button_time cfgW hostW 3 = (("<span ").data ++ ((">3 min</span>").data) ) ∧
    countOcc noboldPat (button_time cfgW hostW 3) = 0 :=
  C9_nobold_stripped cfgW hostW 3 (("<span ").data) ((">3 min</span>").data)
    rfl (by decide) (by decide) (by decide)

set_option maxRecDepth 8000 in
/-- Claim C3 as stated is false on the code: with `remove_buttons` enabled
but `flexible_grading` disabled, the front-side row contains no time labels
(only the centered remaining-counts indicator), so it is not the buttonless
row of section 4.2 with the indicator inserted. -/
theorem C3_front_row_counterexample :
    make_frontside_answer_buttons cfgW hostW
      ≠ FrontResult.shown (spec_front_row_C3 cfgW hostW) := by
  decide

set_option maxRecDepth 8000 in
/-- Claim C3 amended: with `remove_buttons` enabled the front-side row is the
buttonless row with the remaining-counts indicator inserted at index
`floor(len/2)` of the label list, where the label list contains one
time-label per button of the display list when `flexible_grading` is also
enabled (first two conjuncts relate it to the back-side buttonless row of
4.2) and is empty otherwise, leaving only the indicator. -/
theorem C3_front_row (pf cb pc : Bool) (gc : Int → Int → String) (host : Host) :
    make_frontside_answer_buttons ⟨pf, cb, true, pc, true, gc⟩ host
      = FrontResult.shown (row_wrap
          (py_insert (buttonless_labels ⟨pf, cb, true, pc, true, gc⟩ host)
            ((buttonless_labels ⟨pf, cb, true, pc, true, gc⟩ host).length / 2)
            (stat_txt host)).flatten) ∧
    make_buttonless_ease_row ⟨pf, cb, true, pc, true, gc⟩ host false
      = row_wrap (buttonless_labels ⟨pf, cb, true, pc, true, gc⟩ host).flatten ∧
    make_frontside_answer_buttons ⟨pf, cb, true, pc, false, gc⟩ host
      = FrontResult.shown (row_wrap ([stat_txt host].flatten)) :=
  ⟨rfl, rfl, by with_unfolding_all rfl⟩

end FlexibleGrading
